import Mathlib

/-!
Shallow embedding of QEMU's `util/qdt.c` / `include/qemu/qdt.h`:
an in-memory IEEE1275 (Open Firmware) style device tree — named nodes
with ordered lists of named byte-array properties and ordered child
lists — together with path lookup, property mutation and the recursive
flattening traversal that drives the external libfdt encoder.

Modelling conventions:
- C strings (`gchar *`) are `List Char`; byte buffers are `List Nat`.
- The non-owning `parent` back pointer is observed by the code only
  through its presence (`!root->parent` asserts), so a node carries a
  `hasParent : Bool` flag instead of a full back reference.
- `g_assert` / `assert` failures (fatal precondition violations) are
  modelled as an `Option` result: `none` means the assertion fired.
- The libfdt encoder is out of scope for the module (an external
  collaborator); it is modelled as an abstract `FdtEncoder` record whose
  operations return a libfdt-style `Int` return code (negative = error)
  together with the updated buffer state, exactly as `fdt_begin_node`
  and friends do in C.
-/

/-- A device-tree property: `struct QDTProperty` — a name and an opaque
byte sequence (the C `len` field always equals the byte count of `val`,
established by `memcpy(prop->val, val, len)` in `qdt_setprop`). -/
structure QDTProperty where
  name : List Char
  val : List Nat
deriving DecidableEq, Repr

/-- A device-tree node: `struct QDTNode` — a name, the presence of a
parent back pointer, the ordered property list and the ordered child
list (`QTAILQ` order). -/
inductive QDTNode : Type where
  | mk (name : List Char) (hasParent : Bool)
       (properties : List QDTProperty) (children : List QDTNode)
deriving Repr

def QDTNode.name : QDTNode → List Char
  | .mk n _ _ _ => n

def QDTNode.hasParent : QDTNode → Bool
  | .mk _ h _ _ => h

def QDTNode.properties : QDTNode → List QDTProperty
  | .mk _ _ ps _ => ps

def QDTNode.children : QDTNode → List QDTNode
  | .mk _ _ _ cs => cs

/-- `qdt_new_node`: asserts the name has no `/` (else `g_assert` fires,
modelled as `none`), then returns a node with no parent, empty property
list and empty child list (`QTAILQ_INIT`). -/
def qdt_new_node (name : List Char) : Option QDTNode :=
  if Char.ofNat 47 ∈ name then none
  else some (.mk name false [] [])

/-- `qdt_new_tree` (header inline): a fresh root, `qdt_new_node("")`. -/
def qdt_new_tree : Option QDTNode :=
  qdt_new_node []

/-- `get_subnode`: linear scan of `parent->children` for the first child
whose name has length `namelen` and matches `name` byte for byte — on
`List Char` that is exactly list equality with the segment. -/
def get_subnode (parent : QDTNode) (name : List Char) : Option QDTNode :=
  parent.children.find? (fun c => c.name == name)

/-- `qdt_get_node_relative`: repeatedly split off the segment up to the
next `/` (`strchr`) or end of string, look it up with `get_subnode`,
and continue past the separator while a child was found and a separator
existed. -/
def qdt_get_node_relative (node : QDTNode) (path : List Char) : Option QDTNode :=
  let seg := path.takeWhile (fun ch => ch ≠ Char.ofNat 47)
  match get_subnode node seg with
  | none => none
  | some child =>
      if h : seg.length < path.length then
        qdt_get_node_relative child (path.drop (seg.length + 1))
      else
        some child
termination_by path.length
decreasing_by
  simp only [List.length_drop]
  omega

/-- `qdt_get_node`: asserts `!root->parent` and `path[0] == '/'` (each
modelled as `none`), then strips the leading separator and delegates to
`qdt_get_node_relative`. The inner `Option` is the not-found result. -/
def qdt_get_node (root : QDTNode) (path : List Char) : Option (Option QDTNode) :=
  if root.hasParent then none
  else
    match path with
    | [] => none
    | c :: rest =>
        if c = Char.ofNat 47 then some (qdt_get_node_relative root rest)
        else none

/-- Helper for `qdt_add_subnode`: `child->parent = parent` observed as
presence of the back pointer. -/
def setParent : QDTNode → Bool → QDTNode
  | .mk n _ ps cs, b => .mk n b ps cs

/-- Helper for `qdt_add_subnode`: `QTAILQ_INSERT_TAIL(&parent->children,
child, sibling)`. -/
def addChild : QDTNode → QDTNode → QDTNode
  | .mk n hp ps cs, c => .mk n hp ps (cs ++ [c])

/-- `qdt_add_subnode`: create the child via `qdt_new_node` (same fatal
precondition), set its parent, append it at the tail of the parent's
child list; returns the updated parent together with the new child. -/
def qdt_add_subnode (parent : QDTNode) (name : List Char) :
    Option (QDTNode × QDTNode) :=
  match qdt_new_node name with
  | none => none
  | some child0 =>
      let child := setParent child0 true
      some (addChild parent child, child)

/-- `getprop_`: first property in the node's list whose name `strcmp`s
equal. -/
def getprop_ (ps : List QDTProperty) (name : List Char) : Option QDTProperty :=
  ps.find? (fun p => p.name == name)

/-- `qdt_getprop`. -/
def qdt_getprop (node : QDTNode) (name : List Char) : Option QDTProperty :=
  getprop_ node.properties name

/-- `qdt_delprop` on the property list: find the first matching property
and `QTAILQ_REMOVE` it; a no-op when absent. -/
def delprop_ (ps : List QDTProperty) (name : List Char) : List QDTProperty :=
  ps.eraseP (fun p => p.name == name)

/-- `qdt_delprop`. -/
def qdt_delprop (node : QDTNode) (name : List Char) : QDTNode :=
  match node with
  | .mk n hp ps cs => .mk n hp (delprop_ ps name) cs

/-- `qdt_setprop` on the property list: remove any existing property of
that name (`qdt_delprop`), then `QTAILQ_INSERT_TAIL` a fresh property
holding a copy of the bytes. -/
def setprop_ (ps : List QDTProperty) (name : List Char) (val : List Nat) :
    List QDTProperty :=
  delprop_ ps name ++ [⟨name, val⟩]

/-- `qdt_setprop`. -/
def qdt_setprop (node : QDTNode) (name : List Char) (val : List Nat) : QDTNode :=
  match node with
  | .mk n hp ps cs => .mk n hp (setprop_ ps name val) cs

/-- `qdt_setprop_string`: the string's bytes plus the terminating NUL
(`strlen(val) + 1` bytes). -/
def qdt_setprop_string (node : QDTNode) (name : List Char) (val : List Char) :
    QDTNode :=
  qdt_setprop node name (val.map Char.toNat ++ [0])

/-- Modelled from the spec: `cpu_to_fdt32` comes from libfdt (outside
this module); its contract is conversion of a host 32-bit value to
big-endian byte order. We model memory as byte lists, so it returns the
4-byte big-endian image, most significant byte first. -/
def cpu_to_fdt32 (v : Nat) : List Nat :=
  [v / 2 ^ 24 % 256, v / 2 ^ 16 % 256, v / 2 ^ 8 % 256, v % 256]

/-- Modelled from the spec: `cpu_to_fdt64` from libfdt — the 8-byte
big-endian image of a 64-bit value, most significant byte first. -/
def cpu_to_fdt64 (v : Nat) : List Nat :=
  [v / 2 ^ 56 % 256, v / 2 ^ 48 % 256, v / 2 ^ 40 % 256, v / 2 ^ 32 % 256,
   v / 2 ^ 24 % 256, v / 2 ^ 16 % 256, v / 2 ^ 8 % 256, v % 256]

/-- `qdt_setprop_cells_`: byte-swap each 32-bit value with
`cpu_to_fdt32` into `swapval[]`, then store the array's memory image —
the concatenation of the 4-byte big-endian images — via `qdt_setprop`. -/
def qdt_setprop_cells_ (node : QDTNode) (name : List Char) (vals : List Nat) :
    QDTNode :=
  qdt_setprop node name (vals.map cpu_to_fdt32).flatten

/-- `qdt_setprop_u64s_`: same with `cpu_to_fdt64`, 8 bytes per value. -/
def qdt_setprop_u64s_ (node : QDTNode) (name : List Char) (vals : List Nat) :
    QDTNode :=
  qdt_setprop node name (vals.map cpu_to_fdt64).flatten

def linuxPhandlePropName : List Char :=
  [Char.ofNat 108, Char.ofNat 105, Char.ofNat 110, Char.ofNat 117,
   Char.ofNat 120, Char.ofNat 44, Char.ofNat 112, Char.ofNat 104,
   Char.ofNat 97, Char.ofNat 110, Char.ofNat 100, Char.ofNat 108,
   Char.ofNat 101]

def phandlePropName : List Char :=
  [Char.ofNat 112, Char.ofNat 104, Char.ofNat 97, Char.ofNat 110,
   Char.ofNat 100, Char.ofNat 108, Char.ofNat 101]

/-- `qdt_set_phandle`: `g_assert(phandle != 0 && phandle != (uint32_t)-1)`
(modelled as `none`), then one-cell `qdt_setprop_cells` for
`"linux,phandle"` followed by `"phandle"`. -/
def qdt_set_phandle (node : QDTNode) (phandle : Nat) : Option QDTNode :=
  if phandle = 0 ∨ phandle = 4294967295 then none
  else
    some (qdt_setprop_cells_
            (qdt_setprop_cells_ node linuxPhandlePropName [phandle])
            phandlePropName [phandle])

/-- The external libfdt sequential-write encoder, as the module uses it:
each operation takes the buffer state, returns the libfdt return code
(`ret < 0` is failure) and the possibly updated buffer. `initBuf` models
`g_malloc0(bufsize)`, the zeroed buffer handed to `fdt_create`. -/
structure FdtEncoder (σ : Type) where
  initBuf : Nat → σ
  fdt_create : σ → Nat → Int × σ
  fdt_finish_reservemap : σ → Int × σ
  fdt_begin_node : σ → List Char → Int × σ
  fdt_property : σ → List Char → List Nat → Int × σ
  fdt_end_node : σ → Int × σ
  fdt_finish : σ → Int × σ

/-- Which encoding step a structured flattening error names (the
`error_setg` format strings each name exactly one libfdt call). -/
inductive QDTStep where
  | fdt_create
  | fdt_finish_reservemap
  | fdt_begin_node
  | fdt_property
  | fdt_end_node
  | fdt_finish
deriving DecidableEq, Repr

/-- The structured error: the failing step plus the libfdt return code
(whose `fdt_strerror` text the C code embeds in the message). -/
structure QDTError where
  step : QDTStep
  ret : Int
deriving DecidableEq, Repr

/-- The `QTAILQ_FOREACH(prop, ...)` loop of `qdt_flatten_node`: emit one
`fdt_property` record per property in list order, stopping at the first
failing call. Returns the buffer state and the error, if any. -/
def emitProps {σ : Type} (E : FdtEncoder σ) (fdt : σ) :
    List QDTProperty → σ × Option QDTError
  | [] => (fdt, none)
  | p :: ps =>
      let r := E.fdt_property fdt p.name p.val
      if r.1 < 0 then (r.2, some ⟨.fdt_property, r.1⟩)
      else emitProps E r.2 ps

mutual

/-- `qdt_flatten_node`: `fdt_begin_node(name)`, the property loop, the
recursive child loop, then `fdt_end_node()`; the first failing call
produces the error and ends the traversal (`return` in C). The buffer
state is threaded through, as the C buffer is mutated in place. -/
def qdt_flatten_node {σ : Type} (E : FdtEncoder σ) (fdt : σ) :
    QDTNode → σ × Option QDTError
  | .mk name _ props children =>
      let rb := E.fdt_begin_node fdt name
      if rb.1 < 0 then (rb.2, some ⟨.fdt_begin_node, rb.1⟩)
      else
        let rp := emitProps E rb.2 props
        match rp.2 with
        | some e => (rp.1, some e)
        | none =>
            let rc := flattenChildren E rp.1 children
            match rc.2 with
            | some e => (rc.1, some e)
            | none =>
                let re := E.fdt_end_node rc.1
                if re.1 < 0 then (re.2, some ⟨.fdt_end_node, re.1⟩)
                else (re.2, none)

/-- The `QTAILQ_FOREACH(subnode, ...)` loop of `qdt_flatten_node`:
recursively flatten each child in list order; a child's error
(`local_err`) is propagated and stops the loop. -/
def flattenChildren {σ : Type} (E : FdtEncoder σ) (fdt : σ) :
    List QDTNode → σ × Option QDTError
  | [] => (fdt, none)
  | c :: cs =>
      let rn := qdt_flatten_node E fdt c
      match rn.2 with
      | some e => (rn.1, some e)
      | none => flattenChildren E rn.1 cs

end

/-- `qdt_flatten`: assert `!root->parent` (modelled as `none`), allocate
the zeroed buffer, `fdt_create`, `fdt_finish_reservemap`, the recursive
traversal, `fdt_finish`; any failure frees the buffer and returns only
the structured error (`Except.error`), success returns the buffer. -/
def qdt_flatten {σ : Type} (E : FdtEncoder σ) (root : QDTNode) (bufsize : Nat) :
    Option (Except QDTError σ) :=
  if root.hasParent then none
  else
    let rc := E.fdt_create (E.initBuf bufsize) bufsize
    if rc.1 < 0 then some (.error ⟨.fdt_create, rc.1⟩)
    else
      let rr := E.fdt_finish_reservemap rc.2
      if rr.1 < 0 then some (.error ⟨.fdt_finish_reservemap, rr.1⟩)
      else
        let rn := qdt_flatten_node E rr.2 root
        match rn.2 with
        | some e => some (.error e)
        | none =>
            let rf := E.fdt_finish rn.1
            if rf.1 < 0 then some (.error ⟨.fdt_finish, rf.1⟩)
            else some (.ok rf.2)

/-- One encoder call, recorded for trace-based reasoning about the
emission order. -/
inductive EncCall where
  | create (bufsize : Nat)
  | finish_reservemap
  | begin_node (name : List Char)
  | property (name : List Char) (val : List Nat)
  | end_node
  | finish
deriving DecidableEq, Repr

/-- An encoder whose state is the list of calls made so far and whose
return code for each call is chosen by the oracle `f` from the call and
the trace before it. -/
def oracleEncoder (f : List EncCall → EncCall → Int) :
    FdtEncoder (List EncCall) where
  initBuf := fun _ => []
  fdt_create := fun s n => (f s (.create n), s ++ [.create n])
  fdt_finish_reservemap := fun s => (f s .finish_reservemap, s ++ [.finish_reservemap])
  fdt_begin_node := fun s nm => (f s (.begin_node nm), s ++ [.begin_node nm])
  fdt_property := fun s nm v => (f s (.property nm v), s ++ [.property nm v])
  fdt_end_node := fun s => (f s .end_node, s ++ [.end_node])
  fdt_finish := fun s => (f s .finish, s ++ [.finish])

/-- The never-failing recording encoder. -/
def traceEncoder : FdtEncoder (List EncCall) :=
  oracleEncoder (fun _ _ => 0)

mutual

/-- The emission order the spec prescribes for one node: node-begin,
the property records in property-list order, the recursively flattened
children in child-list order, node-end. `qdt_flatten_node` is compared
against this. -/
def flattenSpecOps : QDTNode → List EncCall
  | .mk name _ props children =>
      EncCall.begin_node name ::
        (props.map (fun p => EncCall.property p.name p.val) ++
          (flattenSpecList children ++ [EncCall.end_node]))

/-- Concatenation of the spec-prescribed emissions of a child list. -/
def flattenSpecList : List QDTNode → List EncCall
  | [] => []
  | c :: cs => flattenSpecOps c ++ flattenSpecList cs

end

mutual

/-- `qdt_flatten_node` instrumented with an explicit call-stack budget:
entering a node consumes one stack frame; `none` means the budget was
exhausted somewhere in the traversal. Used to measure the recursion
depth of the C function. -/
def qdt_flatten_node_fuel {σ : Type} (E : FdtEncoder σ) :
    Nat → σ → QDTNode → Option (σ × Option QDTError)
  | 0, _, _ => none
  | fuel + 1, fdt, .mk name _ props children =>
      let rb := E.fdt_begin_node fdt name
      if rb.1 < 0 then some (rb.2, some ⟨.fdt_begin_node, rb.1⟩)
      else
        let rp := emitProps E rb.2 props
        match rp.2 with
        | some e => some (rp.1, some e)
        | none =>
            match flattenChildrenFuel E fuel rp.1 children with
            | none => none
            | some (fdt3, some e) => some (fdt3, some e)
            | some (fdt3, none) =>
                let re := E.fdt_end_node fdt3
                if re.1 < 0 then some (re.2, some ⟨.fdt_end_node, re.1⟩)
                else some (re.2, none)

/-- Child loop of the budgeted traversal; each child is entered with the
same remaining budget, as sibling calls return to the same stack depth. -/
def flattenChildrenFuel {σ : Type} (E : FdtEncoder σ) (fuel : Nat) (fdt : σ) :
    List QDTNode → Option (σ × Option QDTError)
  | [] => some (fdt, none)
  | c :: cs =>
      match qdt_flatten_node_fuel E fuel fdt c with
      | none => none
      | some (fdt1, some e) => some (fdt1, some e)
      | some (fdt1, none) => flattenChildrenFuel E fuel fdt1 cs

end

attribute [simp] QDTNode.name QDTNode.hasParent QDTNode.properties QDTNode.children

/-- Big-endian byte-sequence decoding: most significant byte first. -/
def beBytesToNat (bs : List Nat) : Nat :=
  bs.foldl (fun acc b => 256 * acc + b) 0

/-- Nodes reachable from a freshly created node (`qdt_new_node`, the
starting point of every node, including the child made by
`qdt_add_subnode`) through the property operations of the module. -/
inductive ReachableNode : QDTNode → Prop where
  | new (name : List Char) (n : QDTNode) :
      qdt_new_node name = some n → ReachableNode n
  | set (nm : List Char) (v : List Nat) {n : QDTNode} :
      ReachableNode n → ReachableNode (qdt_setprop n nm v)
  | del (nm : List Char) {n : QDTNode} :
      ReachableNode n → ReachableNode (qdt_delprop n nm)
  | set_string (nm val : List Char) {n : QDTNode} :
      ReachableNode n → ReachableNode (qdt_setprop_string n nm val)
  | set_cells (nm : List Char) (vs : List Nat) {n : QDTNode} :
      ReachableNode n → ReachableNode (qdt_setprop_cells_ n nm vs)
  | set_u64s (nm : List Char) (vs : List Nat) {n : QDTNode} :
      ReachableNode n → ReachableNode (qdt_setprop_u64s_ n nm vs)
  | set_phandle (v : Nat) {n n2 : QDTNode} :
      ReachableNode n → qdt_set_phandle n v = some n2 → ReachableNode n2

mutual

/-- Depth of a tree: number of nested node levels (a leaf has depth 1).
This is the recursion depth `qdt_flatten_node` needs. -/
def depth : QDTNode → Nat
  | .mk _ _ _ children => 1 + depthList children

/-- Largest depth among a list of subtrees (0 for none). -/
def depthList : List QDTNode → Nat
  | [] => 0
  | c :: cs => max (depth c) (depthList cs)

end

/-! ### Helper lemmas about the property list operations -/

theorem names_delprop_sublist (ps : List QDTProperty) (nm : List Char) :
    List.Sublist ((delprop_ ps nm).map QDTProperty.name)
      (ps.map QDTProperty.name) :=
  (List.eraseP_sublist ps).map QDTProperty.name

theorem nodup_names_delprop {ps : List QDTProperty} (nm : List Char)
    (h : (ps.map QDTProperty.name).Nodup) :
    ((delprop_ ps nm).map QDTProperty.name).Nodup :=
  h.sublist (names_delprop_sublist ps nm)

theorem not_mem_names_delprop {ps : List QDTProperty} (nm : List Char)
    (h : (ps.map QDTProperty.name).Nodup) :
    nm ∉ (delprop_ ps nm).map QDTProperty.name := by
  induction ps with
  | nil => simp [delprop_]
  | cons p ps ih =>
      simp only [List.map_cons, List.nodup_cons] at h
      by_cases hp : p.name = nm
      · have he : delprop_ (p :: ps) nm = ps := by
          simp [delprop_, List.eraseP_cons, hp]
        rw [he, ← hp]
        exact h.1
      · have he : delprop_ (p :: ps) nm = p :: delprop_ ps nm := by
          simp [delprop_, List.eraseP_cons, hp]
        rw [he]
        simp only [List.map_cons, List.mem_cons, not_or]
        exact ⟨fun e => hp e.symm, ih h.2⟩

theorem getprop_eq_none {ps : List QDTProperty} {nm : List Char}
    (h : nm ∉ ps.map QDTProperty.name) : getprop_ ps nm = none := by
  simp only [getprop_]
  rw [List.find?_eq_none]
  intro x hx
  simp only [beq_iff_eq]
  exact fun e => h (e ▸ List.mem_map_of_mem QDTProperty.name hx)

theorem getprop_setprop_self {ps : List QDTProperty} (nm : List Char)
    (v : List Nat) (h : (ps.map QDTProperty.name).Nodup) :
    getprop_ (setprop_ ps nm v) nm = some ⟨nm, v⟩ := by
  simp only [setprop_, getprop_]
  rw [List.find?_append]
  have h1 : (delprop_ ps nm).find? (fun p => p.name == nm) = none := by
    have h0 := getprop_eq_none (not_mem_names_delprop nm h)
    simpa only [getprop_] using h0
  rw [h1]
  simp [List.find?]

theorem nodup_names_setprop {ps : List QDTProperty} (nm : List Char)
    (v : List Nat) (h : (ps.map QDTProperty.name).Nodup) :
    ((setprop_ ps nm v).map QDTProperty.name).Nodup := by
  rw [setprop_, List.map_append]
  refine (nodup_names_delprop nm h).append (by simp) ?_
  intro x hx
  simp only [List.map_cons, List.map_nil, List.mem_singleton]
  intro he
  exact not_mem_names_delprop nm h (he ▸ hx)

theorem names_delprop_ne {ps : List QDTProperty} (nm : List Char)
    (h : (ps.map QDTProperty.name).Nodup) :
    ∀ p ∈ delprop_ ps nm, p.name ≠ nm := by
  intro p hp he
  have hm := List.mem_map_of_mem QDTProperty.name hp
  rw [he] at hm
  exact not_mem_names_delprop nm h hm

theorem setprop_setprop {ps : List QDTProperty} (nm : List Char)
    (b1 b2 : List Nat) (h : (ps.map QDTProperty.name).Nodup) :
    setprop_ (setprop_ ps nm b1) nm b2 = delprop_ ps nm ++ [⟨nm, b2⟩] := by
  simp only [setprop_]
  congr 1
  have hall : ∀ b ∈ delprop_ ps nm, ¬((fun q => q.name == nm) b = true) := by
    intro b hb
    simp only [beq_iff_eq]
    exact names_delprop_ne nm h b hb
  have he := List.eraseP_append_right
    (p := fun q => q.name == nm) [(⟨nm, b1⟩ : QDTProperty)] hall
  rw [delprop_, he]
  simp [List.eraseP_cons]

theorem delprop_append_last_ne (l1 : List QDTProperty) (x : QDTProperty)
    (nm : List Char) (hx : x.name ≠ nm) :
    delprop_ (l1 ++ [x]) nm = delprop_ l1 nm ++ [x] := by
  by_cases h : l1.any (fun p => p.name == nm)
  · obtain ⟨a, ha, hpa⟩ := List.any_eq_true.mp h
    exact List.eraseP_append_left (p := fun q => q.name == nm) hpa _ ha
  · have h2 : ∀ b ∈ l1, ¬((fun p => p.name == nm) b = true) := by
      intro b hb
      have := fun hpb => h (List.any_eq_true.mpr ⟨b, hb, hpb⟩)
      exact this
    rw [delprop_, List.eraseP_append_right _ h2]
    have h3 : delprop_ l1 nm = l1 := by
      rw [delprop_]
      exact List.eraseP_of_forall_not h2
    rw [h3]
    simp [List.eraseP_cons, hx]

theorem traceEncoder_fdt_property (s : List EncCall) (nm : List Char)
    (v : List Nat) :
    traceEncoder.fdt_property s nm v = (0, s ++ [.property nm v]) := rfl

theorem traceEncoder_fdt_begin_node (s : List EncCall) (nm : List Char) :
    traceEncoder.fdt_begin_node s nm = (0, s ++ [.begin_node nm]) := rfl

theorem traceEncoder_fdt_end_node (s : List EncCall) :
    traceEncoder.fdt_end_node s = (0, s ++ [.end_node]) := rfl

theorem emitProps_trace (t : List EncCall) (ps : List QDTProperty) :
    emitProps traceEncoder t ps =
      (t ++ ps.map (fun p => EncCall.property p.name p.val), none) := by
  induction ps generalizing t with
  | nil => simp [emitProps]
  | cons p ps ih =>
      simp only [emitProps, traceEncoder_fdt_property]
      norm_num
      rw [ih]
      simp

/-- C3: after `set_property(n, name, b1)` followed by
`set_property(n, name, b2)`, the node has exactly one property named
`name`, its value is exactly `b2`, and it is the last property in the
node's property order as observed during flattening (the pre-existing
property is removed before the new one is appended at the end).
The hypothesis is the node invariant that property names are
pairwise distinct, which every API-constructed node satisfies. -/
theorem qdt_setprop_twice_replaces (n : QDTNode) (nm : List Char)
    (b1 b2 : List Nat) (h : (n.properties.map QDTProperty.name).Nodup) :
    (qdt_setprop (qdt_setprop n nm b1) nm b2).properties.filter
        (fun p => p.name == nm) = [⟨nm, b2⟩] ∧
    qdt_getprop (qdt_setprop (qdt_setprop n nm b1) nm b2) nm = some ⟨nm, b2⟩ ∧
    (∃ l, (qdt_setprop (qdt_setprop n nm b1) nm b2).properties = l ++ [⟨nm, b2⟩] ∧
       ∀ p ∈ l, p.name ≠ nm) ∧
    (∀ t, ((emitProps traceEncoder t
        (qdt_setprop (qdt_setprop n nm b1) nm b2).properties).1).getLast? =
      some (.property nm b2)) := by
  cases n with
  | mk na hp ps cs =>
      simp only [QDTNode.properties] at h
      have hprops : (qdt_setprop (qdt_setprop (QDTNode.mk na hp ps cs) nm b1)
          nm b2).properties = delprop_ ps nm ++ [⟨nm, b2⟩] := by
        simp only [qdt_setprop, QDTNode.properties]
        exact setprop_setprop nm b1 b2 h
      refine ⟨?_, ?_, ?_, ?_⟩
      · rw [hprops, List.filter_append]
        have h1 : (delprop_ ps nm).filter (fun p => p.name == nm) = [] := by
          rw [List.filter_eq_nil_iff]
          intro a ha
          simp only [beq_iff_eq]
          exact names_delprop_ne nm h a ha
        rw [h1]
        simp
      · have h2 := getprop_setprop_self nm b2 (nodup_names_setprop nm b1 h)
        simp only [qdt_getprop, qdt_setprop, QDTNode.properties]
        exact h2
      · exact ⟨delprop_ ps nm, hprops, names_delprop_ne nm h⟩
      · intro t
        rw [hprops, emitProps_trace]
        simp only [List.map_append, List.map_cons, List.map_nil]
        rw [← List.append_assoc]
        exact List.getLast?_concat _

/-- Witness for C3 at a concrete node, name and values. -/
theorem qdt_setprop_twice_replaces_witness :
    (((QDTNode.mk [] false [] []).properties.map QDTProperty.name).Nodup) ∧
    qdt_getprop (qdt_setprop (qdt_setprop (QDTNode.mk [] false [] [])
        [Char.ofNat 97] [1]) [Char.ofNat 97] [2]) [Char.ofNat 97] =
      some ⟨[Char.ofNat 97], [2]⟩ :=
  ⟨by simp, (qdt_setprop_twice_replaces (QDTNode.mk [] false [] [])
      [Char.ofNat 97] [1] [2] (by simp)).2.1⟩

/-! ### Helper lemmas about path resolution -/

theorem qdt_get_node_relative_no_sep (node : QDTNode) (path : List Char)
    (h : Char.ofNat 47 ∉ path) :
    qdt_get_node_relative node path = get_subnode node path := by
  rw [qdt_get_node_relative]
  have hseg : path.takeWhile (fun ch => ch ≠ Char.ofNat 47) = path := by
    rw [List.takeWhile_eq_self_iff]
    intro x hx
    simp only [ne_eq, decide_not, Bool.not_eq_true', decide_eq_false_iff_not]
    exact fun e => h (e ▸ hx)
  rw [hseg]
  cases hg : get_subnode node path with
  | none => simp [hg]
  | some child => simp [hg]

theorem qdt_get_node_relative_sep (node : QDTNode) (seg rest : List Char)
    (h : Char.ofNat 47 ∉ seg) :
    qdt_get_node_relative node (seg ++ Char.ofNat 47 :: rest) =
      match get_subnode node seg with
      | none => none
      | some child => qdt_get_node_relative child rest := by
  rw [qdt_get_node_relative]
  have hseg : (seg ++ Char.ofNat 47 :: rest).takeWhile
      (fun ch => ch ≠ Char.ofNat 47) = seg := by
    rw [List.takeWhile_append_of_pos]
    · rw [List.takeWhile_cons]
      simp
    · intro a ha
      simp only [ne_eq, decide_not, Bool.not_eq_true', decide_eq_false_iff_not]
      exact fun e => h (e ▸ ha)
  rw [hseg]
  have hdrop : (seg ++ Char.ofNat 47 :: rest).drop (seg.length + 1) = rest := by
    have he : seg ++ Char.ofNat 47 :: rest = (seg ++ [Char.ofNat 47]) ++ rest := by
      simp
    rw [he, List.drop_left']
    simp
  have hlt : seg.length < (seg ++ Char.ofNat 47 :: rest).length := by
    simp only [List.length_append, List.length_cons]
    omega
  cases hg : get_subnode node seg with
  | none => simp [hg]
  | some child =>
      simp only [hg]
      rw [dif_pos hlt, hdrop]

theorem child_ne_self (n r : QDTNode) (hr : r ∈ n.children) : r ≠ n := by
  intro he
  subst he
  cases r with
  | mk a b c d =>
      simp only [QDTNode.children] at hr
      have h1 := List.sizeOf_lt_of_mem hr
      have h2 : sizeOf (QDTNode.mk a b c d) = 1 + sizeOf a + sizeOf b
          + sizeOf c + sizeOf d := by
        simp
      omega

/-- C4: `get_node_relative` resolves the path segment by segment by
exact child-name lookup; a matching child continues resolution with the
remaining path, a missing child stops resolution immediately (without
examining further segments), and a path ending in the separator makes
the final lookup search for a child with the empty name. -/
theorem qdt_get_node_relative_segments (node : QDTNode) :
    (∀ nm, get_subnode node nm = node.children.find? (fun c => c.name == nm)) ∧
    (∀ path, Char.ofNat 47 ∉ path →
       qdt_get_node_relative node path = get_subnode node path) ∧
    (∀ seg rest, Char.ofNat 47 ∉ seg →
       qdt_get_node_relative node (seg ++ Char.ofNat 47 :: rest) =
         match get_subnode node seg with
         | none => none
         | some child => qdt_get_node_relative child rest) ∧
    (∀ seg rest, Char.ofNat 47 ∉ seg → get_subnode node seg = none →
       qdt_get_node_relative node (seg ++ Char.ofNat 47 :: rest) = none) ∧
    (∀ seg, Char.ofNat 47 ∉ seg →
       qdt_get_node_relative node (seg ++ [Char.ofNat 47]) =
         match get_subnode node seg with
         | none => none
         | some child => get_subnode child []) := by
  refine ⟨fun nm => rfl, qdt_get_node_relative_no_sep node, ?_, ?_, ?_⟩
  · exact qdt_get_node_relative_sep node
  · intro seg rest hseg hnone
    rw [qdt_get_node_relative_sep node seg rest hseg, hnone]
  · intro seg hseg
    rw [qdt_get_node_relative_sep node seg [] hseg]
    cases hg : get_subnode node seg with
    | none => rfl
    | some child =>
        simp only
        exact qdt_get_node_relative_no_sep child [] (by simp)

/-- Witness for C4: a two-level lookup on a concrete tree, with a path
ending in the separator. -/
theorem qdt_get_node_relative_segments_witness :
    qdt_get_node_relative (QDTNode.mk [] false [] [.mk [Char.ofNat 97] true [] []])
        ([Char.ofNat 97] ++ [Char.ofNat 47]) =
      match get_subnode (QDTNode.mk [] false [] [.mk [Char.ofNat 97] true [] []])
          [Char.ofNat 97] with
      | none => none
      | some child => get_subnode child [] :=
  (qdt_get_node_relative_segments
    (QDTNode.mk [] false [] [.mk [Char.ofNat 97] true [] []])).2.2.2.2
    [Char.ofNat 97] (by decide)

/-- C10: for a parentless root, `get_node(root, "/")` strips the leading
separator, leaving the empty path, and then searches the root's direct
children for a child whose name is empty: it never returns the root
itself, and returns not-found whenever no empty-named child exists — in
particular on a freshly created tree. -/
theorem qdt_get_node_root_sep (root : QDTNode) (h : root.hasParent = false) :
    qdt_get_node root [Char.ofNat 47] = some (get_subnode root []) ∧
    (∀ r, get_subnode root [] = some r → r ∈ root.children ∧ r ≠ root) ∧
    ((∀ c ∈ root.children, c.name ≠ []) →
       qdt_get_node root [Char.ofNat 47] = some none) ∧
    (∀ t, qdt_new_tree = some t → qdt_get_node t [Char.ofNat 47] = some none) := by
  have hmain : qdt_get_node root [Char.ofNat 47] = some (get_subnode root []) := by
    rw [qdt_get_node, h]
    simp only [Bool.false_eq_true, if_false, if_true]
    rw [qdt_get_node_relative_no_sep root [] (by simp)]
  refine ⟨hmain, ?_, ?_, ?_⟩
  · intro r hr
    rw [get_subnode] at hr
    exact ⟨List.mem_of_find?_eq_some hr, child_ne_self root r
      (List.mem_of_find?_eq_some hr)⟩
  · intro hc
    rw [hmain]
    have hn : get_subnode root [] = none := by
      rw [get_subnode, List.find?_eq_none]
      intro c hcm
      simp only [beq_iff_eq]
      exact hc c hcm
    rw [hn]
  · intro t ht
    have he : t = QDTNode.mk [] false [] [] := by
      simp only [qdt_new_tree, qdt_new_node] at ht
      norm_num at ht
      exact ht.symm
    rw [he, qdt_get_node]
    simp only [QDTNode.hasParent, Bool.false_eq_true, if_false, if_true]
    rw [qdt_get_node_relative_no_sep _ [] (by simp)]
    rfl

/-- Witness for C10: the fresh tree `qdt_new_tree` has no empty-named
child, so `get_node(root, "/")` is not-found. -/
theorem qdt_get_node_root_sep_witness :
    qdt_get_node (QDTNode.mk [] false [] []) [Char.ofNat 47] = some none :=
  (qdt_get_node_root_sep (QDTNode.mk [] false [] []) rfl).2.2.2
    (QDTNode.mk [] false [] []) rfl

/-- C8: `new_node(name)` fails its fatal precondition exactly when the
name contains the separator `/`; otherwise the new node has no parent,
an empty property list and an empty child list. `add_subnode` creates
the child through `new_node` (same precondition), marks it as having a
parent, and appends it to the end of the parent's child list, leaving
the parent otherwise unchanged. -/
theorem qdt_new_node_add_subnode_spec (nm : List Char) :
    (qdt_new_node nm = none ↔ Char.ofNat 47 ∈ nm) ∧
    (∀ n, qdt_new_node nm = some n →
       n.name = nm ∧ n.hasParent = false ∧ n.properties = [] ∧ n.children = []) ∧
    (∀ parent, (qdt_add_subnode parent nm = none ↔ Char.ofNat 47 ∈ nm) ∧
       (∀ p2 c, qdt_add_subnode parent nm = some (p2, c) →
          c.name = nm ∧ c.hasParent = true ∧ c.properties = [] ∧ c.children = [] ∧
          p2.name = parent.name ∧ p2.hasParent = parent.hasParent ∧
          p2.properties = parent.properties ∧
          p2.children = parent.children ++ [c])) := by
  by_cases hm : Char.ofNat 47 ∈ nm
  · refine ⟨by simp [qdt_new_node, hm], ?_, ?_⟩
    · intro n hn
      simp [qdt_new_node, hm] at hn
    · intro parent
      refine ⟨by simp [qdt_add_subnode, qdt_new_node, hm], ?_⟩
      intro p2 c hpc
      simp [qdt_add_subnode, qdt_new_node, hm] at hpc
  · refine ⟨by simp [qdt_new_node, hm], ?_, ?_⟩
    · intro n hn
      rw [qdt_new_node, if_neg hm, Option.some_inj] at hn
      subst hn
      simp
    · intro parent
      refine ⟨by simp [qdt_add_subnode, qdt_new_node, hm], ?_⟩
      intro p2 c hpc
      rw [qdt_add_subnode] at hpc
      simp only [qdt_new_node, if_neg hm, setParent] at hpc
      rw [Option.some_inj] at hpc
      injection hpc with hp2 hc
      subst hp2
      subst hc
      cases parent with
      | mk a b d e => simp [addChild]

/-- Witness for C8: adding a subnode named `"a"` to a fresh root places
it at the end of the root's child list. -/
theorem qdt_new_node_add_subnode_spec_witness :
    (QDTNode.mk [] false [] [QDTNode.mk [Char.ofNat 97] true [] []]).children =
      (QDTNode.mk [] false [] []).children ++ [QDTNode.mk [Char.ofNat 97] true [] []] :=
  (((qdt_new_node_add_subnode_spec [Char.ofNat 97]).2.2
      (QDTNode.mk [] false [] [])).2 _ _ rfl).2.2.2.2.2.2.2

/-! ### Big-endian encoding and property lookup through set -/

theorem getprop_append (l1 l2 : List QDTProperty) (nm : List Char) :
    getprop_ (l1 ++ l2) nm = (getprop_ l1 nm).or (getprop_ l2 nm) := by
  simp [getprop_, List.find?_append]

theorem getprop_concat_self {l1 : List QDTProperty} (nm : List Char)
    (v : List Nat) (h : nm ∉ l1.map QDTProperty.name) :
    getprop_ (l1 ++ [⟨nm, v⟩]) nm = some ⟨nm, v⟩ := by
  rw [getprop_append, getprop_eq_none h]
  simp [getprop_, List.find?]

theorem qdt_getprop_setprop (n : QDTNode) (nm : List Char) (v : List Nat)
    (h : (n.properties.map QDTProperty.name).Nodup) :
    qdt_getprop (qdt_setprop n nm v) nm = some ⟨nm, v⟩ := by
  cases n with
  | mk a b ps cs =>
      simp only [QDTNode.properties] at h
      simp only [qdt_getprop, qdt_setprop, QDTNode.properties]
      exact getprop_setprop_self nm v h

theorem getprop_setprop_other {ps : List QDTProperty} (nm1 nm2 : List Char)
    (v1 v2 : List Nat) (h : (ps.map QDTProperty.name).Nodup) (hne : nm1 ≠ nm2) :
    getprop_ (setprop_ (setprop_ ps nm1 v1) nm2 v2) nm1 = some ⟨nm1, v1⟩ := by
  have hstep : setprop_ (setprop_ ps nm1 v1) nm2 v2 =
      (delprop_ (delprop_ ps nm1) nm2 ++ [⟨nm1, v1⟩]) ++ [⟨nm2, v2⟩] := by
    simp only [setprop_]
    rw [delprop_append_last_ne _ _ _ hne]
  rw [hstep, getprop_append]
  have hA : nm1 ∉ (delprop_ (delprop_ ps nm1) nm2).map QDTProperty.name := by
    intro hmem
    exact not_mem_names_delprop nm1 h
      ((names_delprop_sublist (delprop_ ps nm1) nm2).subset hmem)
  rw [getprop_concat_self nm1 v1 hA]
  rfl

theorem length_flatten_fdt32 (vals : List Nat) :
    ((vals.map cpu_to_fdt32).flatten).length = 4 * vals.length := by
  induction vals with
  | nil => simp
  | cons v vs ih =>
      simp only [List.map_cons, List.flatten_cons, List.length_append, ih,
        List.length_cons, cpu_to_fdt32, List.length_nil]
      omega

theorem length_flatten_fdt64 (vals : List Nat) :
    ((vals.map cpu_to_fdt64).flatten).length = 8 * vals.length := by
  induction vals with
  | nil => simp
  | cons v vs ih =>
      simp only [List.map_cons, List.flatten_cons, List.length_append, ih,
        List.length_cons, cpu_to_fdt64, List.length_nil]
      omega

theorem beBytesToNat_fdt32 (v : Nat) (h : v < 2 ^ 32) :
    beBytesToNat (cpu_to_fdt32 v) = v := by
  norm_num [beBytesToNat, cpu_to_fdt32, List.foldl]
  omega

theorem beBytesToNat_fdt64 (v : Nat) (h : v < 2 ^ 64) :
    beBytesToNat (cpu_to_fdt64 v) = v := by
  norm_num [beBytesToNat, cpu_to_fdt64, List.foldl]
  omega

/-- C5: `set_property_cells` stores via `set_property` the
concatenation, in sequence order, of each value encoded as exactly 4
bytes most-significant-byte first (the encoding round-trips through
big-endian decoding for any 32-bit value); `set_property_u64s` does the
same with 8 bytes per 64-bit value. -/
theorem qdt_setprop_cells_u64s_bigendian (n : QDTNode) (nm : List Char)
    (vals : List Nat) :
    qdt_setprop_cells_ n nm vals =
      qdt_setprop n nm (vals.map cpu_to_fdt32).flatten ∧
    qdt_setprop_u64s_ n nm vals =
      qdt_setprop n nm (vals.map cpu_to_fdt64).flatten ∧
    ((vals.map cpu_to_fdt32).flatten).length = 4 * vals.length ∧
    ((vals.map cpu_to_fdt64).flatten).length = 8 * vals.length ∧
    (∀ v, (cpu_to_fdt32 v).length = 4 ∧ (cpu_to_fdt64 v).length = 8 ∧
       (∀ b ∈ cpu_to_fdt32 v, b < 256) ∧ (∀ b ∈ cpu_to_fdt64 v, b < 256)) ∧
    (∀ v, v < 2 ^ 32 → beBytesToNat (cpu_to_fdt32 v) = v) ∧
    (∀ v, v < 2 ^ 64 → beBytesToNat (cpu_to_fdt64 v) = v) ∧
    ((n.properties.map QDTProperty.name).Nodup →
       qdt_getprop (qdt_setprop_cells_ n nm vals) nm =
         some ⟨nm, (vals.map cpu_to_fdt32).flatten⟩ ∧
       qdt_getprop (qdt_setprop_u64s_ n nm vals) nm =
         some ⟨nm, (vals.map cpu_to_fdt64).flatten⟩) := by
  refine ⟨rfl, rfl, length_flatten_fdt32 vals, length_flatten_fdt64 vals,
    ?_, beBytesToNat_fdt32, beBytesToNat_fdt64, ?_⟩
  · intro v
    refine ⟨rfl, rfl, ?_, ?_⟩
    · intro b hb
      simp only [cpu_to_fdt32, List.mem_cons, List.not_mem_nil, or_false] at hb
      rcases hb with h | h | h | h <;> subst h <;> omega
    · intro b hb
      simp only [cpu_to_fdt64, List.mem_cons, List.not_mem_nil, or_false] at hb
      rcases hb with h | h | h | h | h | h | h | h <;> subst h <;> omega
  · intro h
    exact ⟨qdt_getprop_setprop n nm _ h, qdt_getprop_setprop n nm _ h⟩

/-- Witness for C5 at a concrete node, name and value list. -/
theorem qdt_setprop_cells_u64s_bigendian_witness :
    beBytesToNat (cpu_to_fdt32 5) = 5 ∧
    qdt_getprop (qdt_setprop_cells_ (QDTNode.mk [] false [] []) [Char.ofNat 97] [5])
        [Char.ofNat 97] =
      some ⟨[Char.ofNat 97], ([5].map cpu_to_fdt32).flatten⟩ :=
  ⟨(qdt_setprop_cells_u64s_bigendian (QDTNode.mk [] false [] [])
      [Char.ofNat 97] [5]).2.2.2.2.2.1 5 (by norm_num),
   ((qdt_setprop_cells_u64s_bigendian (QDTNode.mk [] false [] [])
      [Char.ofNat 97] [5]).2.2.2.2.2.2.2 (by simp)).1⟩

/-- C6: `set_phandle(n, v)` fails its fatal precondition exactly when
`v` is 0 or the all-ones value `0xFFFFFFFF`; for any other 32-bit `v`
it sets the two properties `"phandle"` and `"linux,phandle"`, each
holding the identical 4-byte big-endian encoding of `v`. -/
theorem qdt_set_phandle_spec (n : QDTNode) (v : Nat) (_hv : v < 2 ^ 32) :
    (qdt_set_phandle n v = none ↔ (v = 0 ∨ v = 2 ^ 32 - 1)) ∧
    ((n.properties.map QDTProperty.name).Nodup →
       ∀ n2, qdt_set_phandle n v = some n2 →
         qdt_getprop n2 phandlePropName = some ⟨phandlePropName, cpu_to_fdt32 v⟩ ∧
         qdt_getprop n2 linuxPhandlePropName =
           some ⟨linuxPhandlePropName, cpu_to_fdt32 v⟩ ∧
         (cpu_to_fdt32 v).length = 4) := by
  have h32 : (2 : Nat) ^ 32 - 1 = 4294967295 := by norm_num
  constructor
  · rw [h32, qdt_set_phandle]
    by_cases h0 : v = 0 ∨ v = 4294967295
    · rw [if_pos h0]
      simp [h0]
    · rw [if_neg h0]
      simp [h0]
  · intro hnd n2 hn2
    rw [qdt_set_phandle] at hn2
    by_cases h0 : v = 0 ∨ v = 4294967295
    · rw [if_pos h0] at hn2
      cases hn2
    · rw [if_neg h0, Option.some_inj] at hn2
      subst hn2
      cases n with
      | mk a b ps cs =>
          simp only [QDTNode.properties] at hnd
          have himg : ([v].map cpu_to_fdt32).flatten = cpu_to_fdt32 v := by simp
          refine ⟨?_, ?_, rfl⟩
          · have hnd1 : ((setprop_ ps linuxPhandlePropName
                (([v].map cpu_to_fdt32).flatten)).map QDTProperty.name).Nodup :=
              nodup_names_setprop _ _ hnd
            have hg := getprop_setprop_self phandlePropName
              (([v].map cpu_to_fdt32).flatten) hnd1
            simp only [qdt_setprop_cells_, qdt_setprop, QDTNode.properties,
              qdt_getprop]
            rw [hg, himg]
          · have hne : linuxPhandlePropName ≠ phandlePropName := by decide
            have hg := getprop_setprop_other linuxPhandlePropName phandlePropName
              (([v].map cpu_to_fdt32).flatten) (([v].map cpu_to_fdt32).flatten)
              hnd hne
            simp only [qdt_setprop_cells_, qdt_setprop, QDTNode.properties,
              qdt_getprop]
            rw [hg, himg]

/-- Witness for C6: `set_phandle` with value 5 on a fresh node yields a
`"phandle"` property holding the big-endian encoding of 5. -/
theorem qdt_set_phandle_spec_witness :
    (5 : Nat) < 2 ^ 32 ∧
    qdt_getprop (qdt_setprop_cells_ (qdt_setprop_cells_ (QDTNode.mk [] false [] [])
        linuxPhandlePropName [5]) phandlePropName [5]) phandlePropName =
      some ⟨phandlePropName, cpu_to_fdt32 5⟩ :=
  ⟨by norm_num,
   ((qdt_set_phandle_spec (QDTNode.mk [] false [] []) 5 (by norm_num)).2
      (by simp) _ rfl).1⟩

/-! ### The pairwise-distinct-names invariant -/

theorem nodup_qdt_setprop (n : QDTNode) (nm : List Char) (v : List Nat)
    (h : (n.properties.map QDTProperty.name).Nodup) :
    ((qdt_setprop n nm v).properties.map QDTProperty.name).Nodup := by
  cases n with
  | mk a b ps cs =>
      simp only [qdt_setprop, QDTNode.properties] at h ⊢
      exact nodup_names_setprop nm v h

theorem nodup_qdt_delprop (n : QDTNode) (nm : List Char)
    (h : (n.properties.map QDTProperty.name).Nodup) :
    ((qdt_delprop n nm).properties.map QDTProperty.name).Nodup := by
  cases n with
  | mk a b ps cs =>
      simp only [qdt_delprop, QDTNode.properties] at h ⊢
      exact nodup_names_delprop nm h

/-- C7: every node constructed by `new_node` has pairwise-distinct
property names, and the invariant is preserved by `set_property` and
all its variants and by `delete_property`: no reachable sequence of
these operations produces two properties with the same name. -/
theorem qdt_reachable_names_nodup (n : QDTNode) (h : ReachableNode n) :
    (n.properties.map QDTProperty.name).Nodup := by
  induction h with
  | new name n hn =>
      by_cases hm : Char.ofNat 47 ∈ name
      · rw [qdt_new_node, if_pos hm] at hn
        cases hn
      · rw [qdt_new_node, if_neg hm, Option.some_inj] at hn
        subst hn
        simp
  | set nm v hr ih => exact nodup_qdt_setprop _ nm v ih
  | del nm hr ih => exact nodup_qdt_delprop _ nm ih
  | set_string nm val hr ih =>
      rw [qdt_setprop_string]
      exact nodup_qdt_setprop _ nm _ ih
  | set_cells nm vs hr ih =>
      rw [qdt_setprop_cells_]
      exact nodup_qdt_setprop _ nm _ ih
  | set_u64s nm vs hr ih =>
      rw [qdt_setprop_u64s_]
      exact nodup_qdt_setprop _ nm _ ih
  | set_phandle v hr heq ih =>
      by_cases h0 : v = 0 ∨ v = 4294967295
      · rw [qdt_set_phandle, if_pos h0] at heq
        cases heq
      · rw [qdt_set_phandle, if_neg h0, Option.some_inj] at heq
        subst heq
        rw [qdt_setprop_cells_, qdt_setprop_cells_]
        exact nodup_qdt_setprop _ _ _ (nodup_qdt_setprop _ _ _ ih)

/-- Witness for C7: a fresh node with one property set has
pairwise-distinct property names. -/
theorem qdt_reachable_names_nodup_witness :
    (((qdt_setprop (QDTNode.mk [] false [] []) [Char.ofNat 97] [1]).properties).map
        QDTProperty.name).Nodup :=
  qdt_reachable_names_nodup _
    (ReachableNode.set [Char.ofNat 97] [1] (ReachableNode.new [] _ rfl))

/-! ### The flattening traversal over the recording encoder -/

mutual

theorem flatten_node_trace (t : List EncCall) (node : QDTNode) :
    qdt_flatten_node traceEncoder t node = (t ++ flattenSpecOps node, none) := by
  cases node with
  | mk name hp props children =>
      rw [qdt_flatten_node, flattenSpecOps]
      simp only [traceEncoder_fdt_begin_node, traceEncoder_fdt_end_node]
      norm_num
      rw [emitProps_trace]
      dsimp only
      rw [flatten_children_trace]
      dsimp only
      simp [List.append_assoc]

theorem flatten_children_trace (t : List EncCall) (cs : List QDTNode) :
    flattenChildren traceEncoder t cs = (t ++ flattenSpecList cs, none) := by
  cases cs with
  | nil => simp [flattenChildren, flattenSpecList]
  | cons c cs2 =>
      rw [flattenChildren, flattenSpecList]
      rw [flatten_node_trace]
      dsimp only
      rw [flatten_children_trace]
      simp [List.append_assoc]

end

/-- C1: `qdt_flatten_node` emits encoder operations in fixed depth-first
preorder — node-begin with the node's name, one property record per
property in property-list order, the recursive flattening of each child
in child-list order, and node-end after all children — for every node
and whatever trace was already emitted before it. -/
theorem qdt_flatten_node_preorder (node : QDTNode) (t : List EncCall) :
    qdt_flatten_node traceEncoder t node = (t ++ flattenSpecOps node, none) :=
  flatten_node_trace t node

theorem one_le_depth (node : QDTNode) : 1 ≤ depth node := by
  cases node with
  | mk a b c d =>
      rw [depth]
      omega

theorem depthList_le_iff (cs : List QDTNode) (k : Nat) :
    depthList cs ≤ k ↔ ∀ c ∈ cs, depth c ≤ k := by
  induction cs with
  | nil => simp [depthList]
  | cons c cs2 ih =>
      rw [depthList]
      simp only [List.mem_cons]
      constructor
      · intro h x hx
        rcases hx with h1 | h1
        · subst h1
          omega
        · exact (ih.mp (by omega)) x h1
      · intro h
        have h1 := h c (Or.inl rfl)
        have h2 := ih.mpr (fun x hx => h x (Or.inr hx))
        omega

mutual

theorem fuel_enough_node {σ : Type} (E : FdtEncoder σ) (fuel : Nat) (fdt : σ)
    (node : QDTNode) (h : depth node ≤ fuel) :
    qdt_flatten_node_fuel E fuel fdt node =
      some (qdt_flatten_node E fdt node) := by
  cases node with
  | mk name hp props children =>
      cases fuel with
      | zero =>
          rw [depth] at h
          omega
      | succ k =>
          rw [qdt_flatten_node_fuel, qdt_flatten_node]
          by_cases hb : (E.fdt_begin_node fdt name).1 < 0
          · simp only [if_pos hb]
          · simp only [if_neg hb]
            cases hp2 : (emitProps E (E.fdt_begin_node fdt name).2 props).2 with
            | some e => simp only [hp2]
            | none =>
                simp only [hp2]
                have hk : depthList children ≤ k := by
                  rw [depth] at h
                  omega
                rw [fuel_enough_children E k
                  (emitProps E (E.fdt_begin_node fdt name).2 props).1 children hk]
                rw [← Prod.mk.eta (p := flattenChildren E
                  (emitProps E (E.fdt_begin_node fdt name).2 props).1 children)]
                cases hc : (flattenChildren E
                    (emitProps E (E.fdt_begin_node fdt name).2 props).1
                    children).2 with
                | some e => rfl
                | none =>
                    by_cases he : (E.fdt_end_node (flattenChildren E
                        (emitProps E (E.fdt_begin_node fdt name).2 props).1
                        children).1).1 < 0
                    · simp only [if_pos he]
                    · simp only [if_neg he]

theorem fuel_enough_children {σ : Type} (E : FdtEncoder σ) (fuel : Nat)
    (fdt : σ) (cs : List QDTNode) (h : depthList cs ≤ fuel) :
    flattenChildrenFuel E fuel fdt cs = some (flattenChildren E fdt cs) := by
  cases cs with
  | nil => rw [flattenChildrenFuel, flattenChildren]
  | cons c cs2 =>
      rw [flattenChildrenFuel, flattenChildren]
      rw [depthList] at h
      rw [fuel_enough_node E fuel fdt c (by omega)]
      rw [← Prod.mk.eta (p := qdt_flatten_node E fdt c)]
      cases hc : (qdt_flatten_node E fdt c).2 with
      | some e => rfl
      | none => exact fuel_enough_children E fuel _ cs2 (by omega)

end

mutual

theorem fuel_short_node (fuel : Nat) (t : List EncCall) (node : QDTNode)
    (h : fuel < depth node) :
    qdt_flatten_node_fuel traceEncoder fuel t node = none := by
  cases node with
  | mk name hp props children =>
      cases fuel with
      | zero => rw [qdt_flatten_node_fuel]
      | succ k =>
          rw [qdt_flatten_node_fuel]
          simp only [traceEncoder_fdt_begin_node]
          norm_num
          rw [emitProps_trace]
          dsimp only
          rw [fuel_short_children k _ children (by rw [depth] at h; omega)]

theorem fuel_short_children (fuel : Nat) (t : List EncCall) (cs : List QDTNode)
    (h : fuel < depthList cs) :
    flattenChildrenFuel traceEncoder fuel t cs = none := by
  cases cs with
  | nil =>
      rw [depthList] at h
      omega
  | cons c cs2 =>
      rw [flattenChildrenFuel]
      rw [depthList] at h
      by_cases hc : fuel < depth c
      · rw [fuel_short_node fuel t c hc]
      · rw [fuel_enough_node traceEncoder fuel t c (by omega)]
        rw [flatten_node_trace t c]
        dsimp only
        exact fuel_short_children fuel _ cs2 (by omega)

end

/-- C9: for every tree — the API constructs only strict trees — the
recursive flattening traversal terminates, and its recursion depth
equals the tree depth: a call-stack budget of `depth node` frames makes
the budgeted traversal complete and agree with the unbounded function
for every encoder, while a budget one frame smaller is exhausted (shown
for the never-failing recording encoder, which reaches the deepest
node). -/
theorem qdt_flatten_node_terminates_at_depth :
    (∀ (σ : Type) (E : FdtEncoder σ) (fdt : σ) (node : QDTNode),
       qdt_flatten_node_fuel E (depth node) fdt node =
         some (qdt_flatten_node E fdt node)) ∧
    (∀ (t : List EncCall) (node : QDTNode),
       qdt_flatten_node_fuel traceEncoder (depth node - 1) t node = none) :=
  ⟨fun _ E fdt node => fuel_enough_node E (depth node) fdt node (le_refl _),
   fun t node => fuel_short_node (depth node - 1) t node
     (by have h1 := one_le_depth node; omega)⟩

/-- C2: whichever step of `qdt_flatten` fails — encoder initialization
(`fdt_create`), reservation-map finalization, any emission during the
traversal, or final finalization — the call returns only a structured
error naming that step and never a buffer (the `Except.error` result
carries no buffer; the C code frees it), and a buffer is returned
exactly when every step succeeded; moreover an emission failure during
the traversal aborts the traversal immediately: a failing child stops
the sibling loop with the child's error and state, and a failing child
loop becomes the parent's result without the parent's node-end being
emitted. -/
theorem qdt_flatten_error_handling {σ : Type} (E : FdtEncoder σ)
    (root : QDTNode) (bufsize : Nat) (h : root.hasParent = false) :
    ((E.fdt_create (E.initBuf bufsize) bufsize).1 < 0 →
       qdt_flatten E root bufsize = some (.error
         ⟨.fdt_create, (E.fdt_create (E.initBuf bufsize) bufsize).1⟩)) ∧
    (¬ (E.fdt_create (E.initBuf bufsize) bufsize).1 < 0 →
      ((E.fdt_finish_reservemap
          (E.fdt_create (E.initBuf bufsize) bufsize).2).1 < 0 →
         qdt_flatten E root bufsize = some (.error ⟨.fdt_finish_reservemap,
           (E.fdt_finish_reservemap
             (E.fdt_create (E.initBuf bufsize) bufsize).2).1⟩)) ∧
      (¬ (E.fdt_finish_reservemap
            (E.fdt_create (E.initBuf bufsize) bufsize).2).1 < 0 →
        (∀ e, (qdt_flatten_node E
            (E.fdt_finish_reservemap
              (E.fdt_create (E.initBuf bufsize) bufsize).2).2 root).2 = some e →
           qdt_flatten E root bufsize = some (.error e)) ∧
        ((qdt_flatten_node E
            (E.fdt_finish_reservemap
              (E.fdt_create (E.initBuf bufsize) bufsize).2).2 root).2 = none →
          ((E.fdt_finish (qdt_flatten_node E
              (E.fdt_finish_reservemap
                (E.fdt_create (E.initBuf bufsize) bufsize).2).2 root).1).1 < 0 →
             qdt_flatten E root bufsize = some (.error ⟨.fdt_finish,
               (E.fdt_finish (qdt_flatten_node E
                 (E.fdt_finish_reservemap
                   (E.fdt_create (E.initBuf bufsize) bufsize).2).2 root).1).1⟩)) ∧
          (¬ (E.fdt_finish (qdt_flatten_node E
               (E.fdt_finish_reservemap
                 (E.fdt_create (E.initBuf bufsize) bufsize).2).2 root).1).1 < 0 →
             qdt_flatten E root bufsize = some (.ok
               (E.fdt_finish (qdt_flatten_node E
                 (E.fdt_finish_reservemap
                   (E.fdt_create (E.initBuf bufsize) bufsize).2).2 root).1).2))))) ∧
    (∀ (fdt : σ) (c : QDTNode) (cs : List QDTNode) (e : QDTError),
       (qdt_flatten_node E fdt c).2 = some e →
       flattenChildren E fdt (c :: cs) = ((qdt_flatten_node E fdt c).1, some e)) ∧
    (∀ (fdt : σ) (nm : List Char) (b : Bool) (props : List QDTProperty)
       (children : List QDTNode) (e : QDTError),
       ¬ (E.fdt_begin_node fdt nm).1 < 0 →
       (emitProps E (E.fdt_begin_node fdt nm).2 props).2 = none →
       (flattenChildren E (emitProps E (E.fdt_begin_node fdt nm).2 props).1
         children).2 = some e →
       qdt_flatten_node E fdt (.mk nm b props children) =
         ((flattenChildren E (emitProps E (E.fdt_begin_node fdt nm).2 props).1
           children).1, some e)) ∧
    (∀ (fdt : σ) (nm : List Char) (b : Bool) (props : List QDTProperty)
       (children : List QDTNode),
       (E.fdt_begin_node fdt nm).1 < 0 →
       qdt_flatten_node E fdt (.mk nm b props children) =
         ((E.fdt_begin_node fdt nm).2,
          some ⟨.fdt_begin_node, (E.fdt_begin_node fdt nm).1⟩)) ∧
    (∀ (fdt : σ) (p : QDTProperty) (ps : List QDTProperty),
       (E.fdt_property fdt p.name p.val).1 < 0 →
       emitProps E fdt (p :: ps) = ((E.fdt_property fdt p.name p.val).2,
         some ⟨.fdt_property, (E.fdt_property fdt p.name p.val).1⟩)) := by
  have hb : ¬ (root.hasParent = true) := by
    rw [h]
    simp
  refine ⟨?_, ?_, ?_, ?_, ?_, ?_⟩
  · intro h1
    simp only [qdt_flatten, if_neg hb]
    rw [if_pos h1]
  · intro h1
    constructor
    · intro h2
      simp only [qdt_flatten, if_neg hb]
      rw [if_neg h1, if_pos h2]
    · intro h2
      constructor
      · intro e he
        simp only [qdt_flatten, if_neg hb]
        rw [if_neg h1, if_neg h2, he]
      · intro hn
        constructor
        · intro h3
          simp only [qdt_flatten, if_neg hb]
          rw [if_neg h1, if_neg h2, hn]
          dsimp only
          rw [if_pos h3]
        · intro h3
          simp only [qdt_flatten, if_neg hb]
          rw [if_neg h1, if_neg h2, hn]
          dsimp only
          rw [if_neg h3]
  · intro fdt c cs e he
    rw [flattenChildren, he]
  · intro fdt nm b props children e h1 h2 h3
    rw [qdt_flatten_node]
    rw [if_neg h1]
    simp only [h2]
    simp only [h3]
  · intro fdt nm b props children h1
    simp only [qdt_flatten_node, if_pos h1]
  · intro fdt p ps h1
    simp only [emitProps, if_pos h1]

/-- Witness for C2: an encoder whose every call fails makes `flatten`
return the structured `fdt_create` error and no buffer. -/
theorem qdt_flatten_error_handling_witness :
    qdt_flatten (oracleEncoder (fun _ _ => -1)) (QDTNode.mk [] false [] []) 0 =
      some (.error ⟨.fdt_create, -1⟩) :=
  (qdt_flatten_error_handling (oracleEncoder (fun _ _ => -1))
    (QDTNode.mk [] false [] []) 0 rfl).1 (by decide)
